import Mathlib

set_option maxRecDepth 1000000

/-!
Shallow embedding of the git object-store program (src/main.rs).

Bytes are modelled as `Nat` values below 256, byte strings as `List Nat`.
Machine integers of the source (u8, u32 in SHA-1, u64 file sizes, usize)
are modelled as `Nat` with explicit `% 2 ^ 32` where 32-bit overflow
matters.  zlib compression is elided: the flate2 encoder and decoder are
exact inverses, so the codec is modelled on the decompressed byte stream
that the program writes into the compressor and reads out of the
decompressor.
-/

/-- Word used for 32-bit wraparound arithmetic in SHA-1: 2 ^ 32. -/
def m32 : Nat := 4294967296

/-- UTF-8 bytes of a string.  Every string literal used in this file is
ASCII, where codepoints and UTF-8 bytes coincide. -/
def strBytes (s : String) : List Nat := s.data.map Char.toNat

/-- ASCII decimal digits of a natural number, least significant first,
with the fuel pattern so that the kernel can evaluate it.  Mirrors the
digit production of Rust to_string on unsigned integers. -/
def natDigitsRevFuel : Nat → Nat → List Nat
  | _, 0 => []
  | 0, _ + 1 => []
  | f + 1, n + 1 => ((n + 1) % 10 + 48) :: natDigitsRevFuel f ((n + 1) / 10)

/-- ASCII decimal rendering of a natural number, as Rust to_string. -/
def natToString (n : Nat) : List Nat :=
  if n = 0 then [48] else (natDigitsRevFuel n n).reverse

/-- Value of a little-endian ASCII digit list; proof device for the
decimal round trip. -/
def ofDigitsRev : List Nat → Nat
  | [] => 0
  | d :: ds => (d - 48) + 10 * ofDigitsRev ds

/-- Big-endian value of ASCII digit bytes, the accumulator fold performed
by Rust usize from_str. -/
def digitsToVal : List Nat → Nat → Nat
  | [], a => a
  | d :: ds, a => digitsToVal ds (a * 10 + (d - 48))

/-- Parse a nonempty all-digit byte string, as the digit phase of Rust
usize from_str. -/
def parseDigits (bs : List Nat) : Option Nat :=
  if bs.isEmpty then none
  else if bs.all (fun b => Nat.blt 47 b && Nat.blt b 58) then some (digitsToVal bs 0)
  else none

/-- Rust usize from_str: optional leading plus sign, then decimal digits.
`none` models the Err that the callers turn into a panic via expect. -/
def parseUsize (bs : List Nat) : Option Nat :=
  match bs with
  | 43 :: rest => parseDigits rest
  | _ => parseDigits bs

/-- BufRead read_until: bytes read up to and including the delimiter
(or all remaining bytes when the delimiter is absent), plus the rest. -/
def readUntilByte (delim : Nat) : List Nat → List Nat × List Nat
  | [] => ([], [])
  | b :: rest =>
    if b = delim then ([b], rest)
    else
      let r := readUntilByte delim rest
      (b :: r.1, r.2)

/-- Successive chunks of at most `sz` bytes, fuelled for kernel
evaluation; models a Read loop that pulls `sz`-byte buffers until EOF. -/
def chunksOfFuel (sz : Nat) : Nat → List Nat → List (List Nat)
  | 0, _ => []
  | _, [] => []
  | f + 1, l => l.take sz :: chunksOfFuel sz f (l.drop sz)

/-- The 1024-byte read loop of hash_file (src/main.rs lines 264 to 269). -/
def readChunks (l : List Nat) : List (List Nat) := chunksOfFuel 1024 l.length l

/-- Big-endian byte rendering of a value in `k` bytes. -/
def beBytes : Nat → Nat → List Nat
  | 0, _ => []
  | k + 1, v => beBytes k (v / 256) ++ [v % 256]

/-- Left rotation of a 32-bit word by `s` bits. -/
def rotl (s x : Nat) : Nat := (x * 2 ^ s + x / 2 ^ (32 - s)) % m32

/-- Big-endian 32-bit words from bytes (groups of four). -/
def bytesToWords : List Nat → List Nat
  | b0 :: b1 :: b2 :: b3 :: rest =>
    (((b0 * 256 + b1) * 256 + b2) * 256 + b3) :: bytesToWords rest
  | _ => []

/-- Extend the 16-word SHA-1 message schedule by `k` further words. -/
def sha1Extend : List Nat → Nat → List Nat
  | ws, 0 => ws
  | ws, k + 1 =>
    let n := ws.length
    let w := rotl 1 ((ws.getD (n - 3) 0) ^^^ (ws.getD (n - 8) 0) ^^^
                     (ws.getD (n - 14) 0) ^^^ (ws.getD (n - 16) 0))
    sha1Extend (ws ++ [w]) k

/-- SHA-1 round function. -/
def sha1F (i b c d : Nat) : Nat :=
  if i < 20 then (b &&& c) ||| ((b ^^^ (m32 - 1)) &&& d)
  else if i < 40 then b ^^^ c ^^^ d
  else if i < 60 then (b &&& c) ||| (b &&& d) ||| (c &&& d)
  else b ^^^ c ^^^ d

/-- SHA-1 round constants. -/
def sha1K (i : Nat) : Nat :=
  if i < 20 then 1518500249
  else if i < 40 then 1859775393
  else if i < 60 then 2400959708
  else 3395469782

/-- Five-word SHA-1 state. -/
structure Sha1H where
  h0 : Nat
  h1 : Nat
  h2 : Nat
  h3 : Nat
  h4 : Nat
deriving DecidableEq

/-- The 80 SHA-1 rounds, one per schedule word. -/
def sha1Rounds : Nat → List Nat → Sha1H → Sha1H
  | _, [], s => s
  | i, w :: ws, s =>
    let t := (rotl 5 s.h0 + sha1F i s.h1 s.h2 s.h3 + s.h4 + sha1K i + w) % m32
    sha1Rounds (i + 1) ws ⟨t, s.h0, rotl 30 s.h1, s.h2, s.h3⟩

/-- Process one 64-byte block. -/
def sha1Block (h : Sha1H) (block : List Nat) : Sha1H :=
  let ws := sha1Extend (bytesToWords block) 64
  let r := sha1Rounds 0 ws h
  ⟨(h.h0 + r.h0) % m32, (h.h1 + r.h1) % m32, (h.h2 + r.h2) % m32,
   (h.h3 + r.h3) % m32, (h.h4 + r.h4) % m32⟩

/-- SHA-1 padding: 0x80, zeros to 56 mod 64, 8-byte big-endian bit length. -/
def sha1Pad (msg : List Nat) : List Nat :=
  let z := (120 - (msg.length + 1) % 64) % 64
  msg ++ 128 :: List.replicate z 0 ++ beBytes 8 (8 * msg.length)

/-- SHA-1 initial state. -/
def sha1Init : Sha1H := ⟨1732584193, 4023233417, 2562383102, 271733878, 3285377520⟩

/-- SHA-1 digest (20 bytes) of a byte string. -/
def sha1 (msg : List Nat) : List Nat :=
  let padded := sha1Pad msg
  let final := (chunksOfFuel 64 padded.length padded).foldl sha1Block sha1Init
  beBytes 4 final.h0 ++ beBytes 4 final.h1 ++ beBytes 4 final.h2 ++
  beBytes 4 final.h3 ++ beBytes 4 final.h4

/-- Streaming Sha1 hasher of the sha1 crate: its state is, semantically,
the byte string absorbed so far; update appends, finalize digests. -/
abbrev Sha1State := List Nat

/-- Sha1 new_with_prefix. -/
def Sha1.newWithPrefix (p : List Nat) : Sha1State := p

/-- Sha1 update (streaming absorption is concatenation). -/
def Sha1.update (s : Sha1State) (b : List Nat) : Sha1State := s ++ b

/-- Sha1 finalize. -/
def Sha1.finalize (s : Sha1State) : List Nat := sha1 s

/-- ObjType enum (src/main.rs lines 369 to 376). -/
inductive ObjType
  | None
  | Commit
  | Tree
  | Blob
  | Tag
deriving DecidableEq

/-- ObjType type_name (src/main.rs lines 379 to 387); the catch-all arm
is an unimplemented panic, modelled as `none`. -/
def typeName : ObjType → Option (List Nat)
  | ObjType.Commit => some (strBytes "commit")
  | ObjType.Tree => some (strBytes "tree")
  | ObjType.Blob => some (strBytes "blob")
  | ObjType.Tag => some (strBytes "tag")
  | ObjType.None => none

/-- TreeObjMode enum (src/main.rs lines 394 to 400). -/
inductive TreeObjMode
  | Directory
  | RegularFile
  | ExecutableFile
  | Link
deriving DecidableEq

/-- TreeObjMode from (src/main.rs lines 402 to 417): inspects only
bytes 0 and 1 of the mode token.  `none` models the panics: index out
of bounds on a short token and the unimplemented arms. -/
def TreeObjMode.fromBytes : List Nat → Option TreeObjMode
  | [] => none
  | b0 :: rest =>
    if b0 = 49 then
      match rest with
      | [] => none
      | b1 :: _ =>
        if b1 = 48 then some TreeObjMode.RegularFile
        else if b1 = 50 then some TreeObjMode.Link
        else none
    else if b0 = 52 then some TreeObjMode.Directory
    else none

/-- TreeObjMode as_bytes (src/main.rs lines 419 to 426); the catch-all
arm is an unimplemented panic, modelled as `none`. -/
def TreeObjMode.as_bytes : TreeObjMode → Option (List Nat)
  | TreeObjMode.RegularFile => some (strBytes "100644")
  | TreeObjMode.Directory => some (strBytes "40000")
  | _ => none

/-- TreeEntry (src/main.rs lines 438 to 443).  The name is kept as its
UTF-8 bytes; the hash is a 20-byte array in the source, a byte list
here. -/
structure TreeEntry where
  mode : TreeObjMode
  otype : ObjType
  hash : List Nat
  name : List Nat
deriving DecidableEq

/-- The tree body built by hash_tree (src/main.rs lines 278 to 285):
per entry, mode bytes, a space, the name, a NUL, the 20 hash bytes.
`none` models the as_bytes panic on a Link or ExecutableFile entry. -/
def serializeTree : List TreeEntry → Option (List Nat)
  | [] => some []
  | e :: rest =>
    match TreeObjMode.as_bytes e.mode with
    | none => none
    | some mb =>
      (serializeTree rest).map (fun r => mb ++ 32 :: e.name ++ 0 :: e.hash ++ r)

/-- The hash hash_tree computes for an already serialized body
(src/main.rs lines 286 to 297): SHA-1 of "tree", space, decimal body
length, NUL, then the body. -/
def treeHashOf (buf : List Nat) : List Nat :=
  Sha1.finalize (Sha1.update
    (Sha1.newWithPrefix (strBytes "tree " ++ natToString buf.length ++ [0])) buf)

/-- The hash computed by hash_tree (src/main.rs lines 275 to 298),
`none` when serialization panics. -/
def hashTreeHash (tree : List TreeEntry) : Option (List Nat) :=
  (serializeTree tree).map treeHashOf

/-- The byte stream hash_file feeds to the hasher (src/main.rs lines
257 to 269): prefix "blob ", the decimal file size, a NUL, then the
file content in 1024-byte read chunks. -/
def hash_file_stream (content : List Nat) : Sha1State :=
  (readChunks content).foldl Sha1.update
    (Sha1.update (Sha1.update (Sha1.newWithPrefix (strBytes "blob "))
      (natToString content.length)) [0])

/-- hash_file (src/main.rs lines 257 to 273), with the file given by its
content bytes (the metadata size of a file is its byte count). -/
def hash_file (content : List Nat) : List Nat :=
  Sha1.finalize (hash_file_stream content)

/-- Modelled from the spec formula in section 3: ObjectHash(K, C) is
SHA1 of the kind token, a space, the decimal length of C, a NUL, then
C.  Used only to compare the program hashes against the spec. -/
def specObjectHash (kindToken : List Nat) (content : List Nat) : List Nat :=
  sha1 (kindToken ++ 32 :: natToString content.length ++ 0 :: content)

/-- is_plausibly_obj_sha-validated hex string, then obj_path_from_sha
(src/main.rs lines 250 to 255): dot-git slash objects slash first two
hex chars slash remaining chars.  Paths are byte lists; 47 is the
slash. -/
def obj_path_from_sha (objSha : List Nat) : List Nat :=
  strBytes ".git/objects/" ++ objSha.take 2 ++ 47 :: objSha.drop 2

/-- Lowercase hex character of a nibble. -/
def hexDigitChar (n : Nat) : Nat := if n < 10 then 48 + n else 87 + n

/-- hex encode of a byte string (two lowercase hex chars per byte). -/
def hexEncode : List Nat → List Nat
  | [] => []
  | b :: rest => hexDigitChar (b / 16 % 16) :: hexDigitChar (b % 16) :: hexEncode rest

/-- Characters strictly before the last slash of a path, as Path
parent; `none` when the path has no slash. -/
def lastSlashSplit : List Nat → Option (List Nat)
  | [] => none
  | c :: rest =>
    match lastSlashSplit rest with
    | some tail => some (c :: tail)
    | none => if c = 47 then some [] else none

/-- A stored file of the object database: its (decompressed) byte
content and whether it has been made read-only. -/
structure FsFile where
  data : List Nat
  readonly : Bool
deriving DecidableEq

/-- The object database slice of the filesystem: files by path, plus
the set of directories, both as lists. -/
structure ObjDb where
  files : List (List Nat × FsFile)
  dirs : List (List Nat)
deriving DecidableEq

/-- Path exists check (files or directories). -/
def pathExists (db : ObjDb) (p : List Nat) : Bool :=
  db.dirs.contains p || db.files.any (fun kv => kv.1 == p)

/-- Content of the file at a path, if any. -/
def ObjDb.findFile (db : ObjDb) (p : List Nat) : Option FsFile :=
  match db.files.find? (fun kv => kv.1 == p) with
  | some kv => some kv.2
  | none => none

/-- Create or replace the file at a path. -/
def ObjDb.setFile (db : ObjDb) (p : List Nat) (f : FsFile) : ObjDb :=
  ⟨(p, f) :: db.files.filter (fun kv => !(kv.1 == p)), db.dirs⟩

/-- One read from the input stream handed to encode_object: a successful
buffer of bytes, or an I/O failure. -/
inductive Chunk
  | ok (bytes : List Nat)
  | ioErr
deriving DecidableEq

/-- Concatenation of the successful prefix of the input chunks onto an
accumulator, with a flag telling whether every read succeeded; models
io copy inside encode_object. -/
def copyChunks : List Chunk → List Nat → Bool × List Nat
  | [], acc => (true, acc)
  | Chunk.ok bs :: rest, acc => copyChunks rest (acc ++ bs)
  | Chunk.ioErr :: _, acc => (false, acc)

/-- Errors of the store operations.  panicked stands for a Rust panic
(expect, unwrap, unimplemented), the others for the anyhow errors the
code propagates. -/
inductive EncodeErr
  | panicked
  | noParent
  | notADir
  | ioFailure
deriving DecidableEq

/-- The prefix-directory handling of encode_object (src/main.rs lines
321 to 335): keep an existing directory, raise the ensure error when a
file occupies the path, create the directory otherwise. -/
def ensureDir (db : ObjDb) (dir : List Nat) : Except EncodeErr ObjDb :=
  if db.dirs.contains dir then Except.ok db
  else if db.files.any (fun kv => kv.1 == dir) then Except.error EncodeErr.notADir
  else Except.ok ⟨db.files, dir :: db.dirs⟩

/-- The write phase of encode_object (src/main.rs lines 343 to 366),
entered with the output file already opened (its previous bytes are
`old`; opening with create but without truncate keeps an existing
tail beyond what is rewritten).  Builds the header, copies the input,
and marks the file read-only on success; an input failure leaves the
partially written file in place with the error propagated. -/
def encodeBody (otype : ObjType) (input : List Chunk) (filesz : Nat)
    (p : List Nat) (db : ObjDb) (old : List Nat) : Except EncodeErr Unit × ObjDb :=
  match typeName otype with
  | none => (Except.error EncodeErr.panicked, db)
  | some tn =>
    let header := tn ++ 32 :: natToString filesz ++ [0]
    let copied := copyChunks input header
    let data := copied.2 ++ old.drop copied.2.length
    if copied.1 then
      (Except.ok (), db.setFile p ⟨data, true⟩)
    else
      (Except.error EncodeErr.ioFailure, db.setFile p ⟨data, false⟩)

/-- encode_object (src/main.rs lines 313 to 367).  The bytes stored are
the stream fed to the zlib encoder (compression elided).  The open with
create and write fails on an existing read-only file. -/
def encode_object (otype : ObjType) (input : List Chunk) (filesz : Nat)
    (p : List Nat) (db : ObjDb) : Except EncodeErr Unit × ObjDb :=
  match lastSlashSplit p with
  | none => (Except.error EncodeErr.noParent, db)
  | some dir =>
    match ensureDir db dir with
    | Except.error e => (Except.error e, db)
    | Except.ok dbA =>
      match dbA.findFile p with
      | some f =>
        if f.readonly then (Except.error EncodeErr.ioFailure, dbA)
        else encodeBody otype input filesz p dbA f.data
      | none => encodeBody otype input filesz p (dbA.setFile p ⟨[], false⟩) []

/-- hash_object (src/main.rs lines 220 to 244), with the input file
given by its content bytes: hash, then on write derive the path, skip
everything when it exists, otherwise encode into the database. -/
def hash_object (content : List Nat) (doWrite : Bool) (db : ObjDb) :
    Except EncodeErr (List Nat) × ObjDb :=
  let hash := hash_file content
  if doWrite then
    let p := obj_path_from_sha (hexEncode hash)
    if pathExists db p then (Except.ok hash, db)
    else
      match encode_object ObjType.Blob [Chunk.ok content] content.length p db with
      | (Except.ok _, db2) => (Except.ok hash, db2)
      | (Except.error e, db2) => (Except.error e, db2)
  else (Except.ok hash, db)

/-- hash_tree (src/main.rs lines 275 to 311): serialize (panicking on a
Link or ExecutableFile mode), hash, then store the tree body unless the
derived path already exists. -/
def hash_tree (tree : List TreeEntry) (db : ObjDb) :
    Except EncodeErr (List Nat) × ObjDb :=
  match serializeTree tree with
  | none => (Except.error EncodeErr.panicked, db)
  | some buf =>
    let hash := treeHashOf buf
    let p := obj_path_from_sha (hexEncode hash)
    if pathExists db p then (Except.ok hash, db)
    else
      match encode_object ObjType.Tree [Chunk.ok buf] buf.length p db with
      | (Except.ok _, db2) => (Except.ok hash, db2)
      | (Except.error e, db2) => (Except.error e, db2)

/-- The decompressed stream a successful encode_object writes for a
content re-readable from the start, the size argument being the content
length as both callers pass it: header then content. -/
def encodeStream (otype : ObjType) (content : List Nat) : Option (List Nat) :=
  (typeName otype).map (fun tn => tn ++ 32 :: natToString content.length ++ 0 :: content)

/-- The header-size phase of object_decoder for the blob and tree arms
(src/main.rs lines 470 to 494): consume one byte unchecked (the space),
read up to the NUL, pop the terminator, parse the decimal.  `none`
models the panics on a missing byte or an unparseable size. -/
def parseObjSize (t : ObjType) (afterMagic : List Nat) :
    Option (ObjType × Nat × List Nat) :=
  match afterMagic with
  | [] => none
  | _ :: rest =>
    let ru := readUntilByte 0 rest
    match parseUsize ru.1.dropLast with
    | some n => some (t, n, ru.2)
    | none => none

/-- object_decoder (src/main.rs lines 460 to 505) on the decompressed
stream: read a fixed four-byte magic (panic, modelled none, when fewer
bytes exist), then dispatch; the commit arm consumes three further
bytes unchecked, the tag arm nothing, and an unrecognized magic falls
through to kind Blob with size 0 and the stream left as is. -/
def object_decoder : List Nat → Option (ObjType × Nat × List Nat)
  | b0 :: b1 :: b2 :: b3 :: rest =>
    if [b0, b1, b2, b3] = strBytes "blob" then parseObjSize ObjType.Blob rest
    else if [b0, b1, b2, b3] = strBytes "tree" then parseObjSize ObjType.Tree rest
    else if [b0, b1, b2, b3] = strBytes "comm" then
      match rest with
      | _ :: _ :: _ :: rest2 => some (ObjType.Commit, 0, rest2)
      | _ => none
    else if [b0, b1, b2, b3] = strBytes "tag " then some (ObjType.Tag, 0, rest)
    else some (ObjType.Blob, 0, rest)
  | _ => none

/-- Result of the LsTree parsing loop: the collected entries, or a
panic that terminates the process. -/
inductive LsTreeResult
  | ok (ents : List TreeEntry)
  | panicked
deriving DecidableEq

/-- The LsTree entry loop (src/main.rs lines 81 to 132) over the
decompressed tree body.  Per iteration: read up to a space (EOF before
any byte breaks cleanly), map the mode token (panics modelled none),
read up to a NUL for the name (EOF before any byte also breaks,
silently dropping the parsed mode), pop the final name byte, then
exactly 20 hash bytes (panic when fewer remain). -/
def lsTreeLoop : Nat → List Nat → List TreeEntry → LsTreeResult
  | 0, _, _ => LsTreeResult.panicked
  | _ + 1, [], acc => LsTreeResult.ok acc
  | fuel + 1, b :: bytes, acc =>
    let modeRead := readUntilByte 32 (b :: bytes)
    match TreeObjMode.fromBytes modeRead.1 with
    | none => LsTreeResult.panicked
    | some mode =>
      let otype := match mode with
        | TreeObjMode.Directory => ObjType.Tree
        | _ => ObjType.Blob
      match modeRead.2 with
      | [] => LsTreeResult.ok acc
      | c :: rest1 =>
        let nameRead := readUntilByte 0 (c :: rest1)
        let name := nameRead.1.dropLast
        if nameRead.2.length < 20 then LsTreeResult.panicked
        else
          lsTreeLoop fuel (nameRead.2.drop 20)
            (acc ++ [⟨mode, otype, nameRead.2.take 20, name⟩])

/-- The LsTree loop from an empty entry list, fuelled by the stream
length (each iteration consumes at least one byte). -/
def lsTree (bytes : List Nat) : LsTreeResult :=
  lsTreeLoop (bytes.length + 1) bytes []

/-- A filesystem node as the tree builder observes it.  Symbolic links
carry their own link text alongside what they resolve to, because the
walk reaches targets through the link (File open and is_dir both
follow links).  Dangling links are out of the model. -/
inductive FsNode
  | file (data : List Nat)
  | dir (children : List (List Nat × FsNode))
  | symlinkFile (linkText : List Nat) (targetData : List Nat)
  | symlinkDir (linkText : List Nat) (targetChildren : List (List Nat × FsNode))

/-- Path is_dir of a node: follows symbolic links. -/
def isDirNode : FsNode → Bool
  | FsNode.dir _ => true
  | FsNode.symlinkDir _ _ => true
  | _ => false

/-- Byte-wise lexicographic order on names, the OsString order used to
sort dirents. -/
def bytesLe : List Nat → List Nat → Bool
  | [], _ => true
  | _ :: _, [] => false
  | x :: xs, y :: ys =>
    if x < y then true else if y < x then false else bytesLe xs ys

/-- Stable insertion into a name-sorted directory listing. -/
def insertByName (x : List Nat × FsNode) :
    List (List Nat × FsNode) → List (List Nat × FsNode)
  | [] => [x]
  | y :: ys =>
    if bytesLe x.1 y.1 then x :: y :: ys else y :: insertByName x ys

/-- The byte-wise ascending sort of dirents (src/main.rs line 170). -/
def sortByName : List (List Nat × FsNode) → List (List Nat × FsNode)
  | [] => []
  | x :: xs => insertByName x (sortByName xs)

/-- One pass of write_tree_recursive over already sorted children
(src/main.rs lines 173 to 206), parameterized by the recursive call:
skip the control directory, recurse through anything is_dir reports as
a directory (hashing the sub tree), and hash anything else as a blob
of the bytes File open yields.  Store writes are elided: they do not
feed back into the produced entries.  `none` models the expect panics
when hashing a sub tree fails. -/
def wtrStep (recurse : List (List Nat × FsNode) → Option (List TreeEntry)) :
    List (List Nat × FsNode) → Option (List TreeEntry)
  | [] => some []
  | (name, node) :: rest =>
    if name = strBytes ".git" then wtrStep recurse rest
    else
      match node with
      | FsNode.dir cs =>
        match recurse cs with
        | none => none
        | some sub =>
          match hashTreeHash sub with
          | none => none
          | some h =>
            (wtrStep recurse rest).map
              (fun r => ⟨TreeObjMode.Directory, ObjType.Tree, h, name⟩ :: r)
      | FsNode.symlinkDir _ cs =>
        match recurse cs with
        | none => none
        | some sub =>
          match hashTreeHash sub with
          | none => none
          | some h =>
            (wtrStep recurse rest).map
              (fun r => ⟨TreeObjMode.Directory, ObjType.Tree, h, name⟩ :: r)
      | FsNode.file d =>
        (wtrStep recurse rest).map
          (fun r => ⟨TreeObjMode.RegularFile, ObjType.Blob, hash_file d, name⟩ :: r)
      | FsNode.symlinkFile _ d =>
        (wtrStep recurse rest).map
          (fun r => ⟨TreeObjMode.RegularFile, ObjType.Blob, hash_file d, name⟩ :: r)

/-- write_tree_recursive (src/main.rs lines 165 to 208), fuelled by the
directory depth: sort the children, then process them in order. -/
def write_tree_recursive : Nat → List (List Nat × FsNode) → Option (List TreeEntry)
  | 0, _ => none
  | fuel + 1, children => wtrStep (write_tree_recursive fuel) (sortByName children)


/-! Helper lemmas about the byte utilities. -/

theorem natDigitsRevFuel_val : ∀ f n, n ≤ f → ofDigitsRev (natDigitsRevFuel f n) = n := by
  intro f
  induction f with
  | zero =>
    intro n hn
    interval_cases n
    rfl
  | succ f ih =>
    intro n hn
    cases n with
    | zero => rfl
    | succ m =>
      have hdiv : (m + 1) / 10 ≤ f := by
        have h1 : (m + 1) / 10 < m + 1 := Nat.div_lt_self (Nat.succ_pos m) (by omega)
        omega
      simp only [natDigitsRevFuel, ofDigitsRev, ih _ hdiv]
      omega

theorem natDigitsRevFuel_bounds : ∀ f n d, d ∈ natDigitsRevFuel f n → 48 ≤ d ∧ d ≤ 57 := by
  intro f
  induction f with
  | zero =>
    intro n d hd
    cases n <;> simp [natDigitsRevFuel] at hd
  | succ f ih =>
    intro n d hd
    cases n with
    | zero => simp [natDigitsRevFuel] at hd
    | succ m =>
      simp only [natDigitsRevFuel, List.mem_cons] at hd
      rcases hd with h | h
      · have : (m + 1) % 10 < 10 := Nat.mod_lt _ (by omega)
        omega
      · exact ih _ _ h

theorem digitsToVal_append : ∀ xs ys a, digitsToVal (xs ++ ys) a = digitsToVal ys (digitsToVal xs a) := by
  intro xs
  induction xs with
  | nil => intro ys a; rfl
  | cons x xs ih =>
    intro ys a
    simp only [List.cons_append, digitsToVal, List.append_eq, ih]

theorem digitsToVal_reverse : ∀ ds a, digitsToVal ds.reverse a = a * 10 ^ ds.length + ofDigitsRev ds := by
  intro ds
  induction ds with
  | nil => intro a; simp [digitsToVal, ofDigitsRev]
  | cons d ds ih =>
    intro a
    simp only [List.reverse_cons, digitsToVal_append, digitsToVal, ofDigitsRev, ih,
      List.length_cons]
    ring_nf

theorem natToString_bounds : ∀ n b, b ∈ natToString n → 48 ≤ b ∧ b ≤ 57 := by
  intro n b hb
  unfold natToString at hb
  split at hb
  · simp at hb
    omega
  · rw [List.mem_reverse] at hb
    exact natDigitsRevFuel_bounds _ _ _ hb

theorem natToString_ne_nil : ∀ n, natToString n ≠ [] := by
  intro n
  unfold natToString
  split
  · simp
  · next h =>
    cases n with
    | zero => simp at h
    | succ m => simp [natDigitsRevFuel]

theorem parseDigits_natToString : ∀ n, parseDigits (natToString n) = some n := by
  intro n
  unfold parseDigits
  rw [if_neg (by simp [natToString_ne_nil n])]
  rw [if_pos]
  · congr 1
    unfold natToString
    split
    · next h => subst h; rfl
    · next h =>
      rw [digitsToVal_reverse]
      rw [natDigitsRevFuel_val n n (Nat.le_refl n)]
      ring
  · rw [List.all_eq_true]
    intro b hb
    have := natToString_bounds n b hb
    simp only [Bool.and_eq_true, Nat.blt_eq]
    omega

theorem parseUsize_natToString : ∀ n, parseUsize (natToString n) = some n := by
  intro n
  unfold parseUsize
  cases h : natToString n with
  | nil => exact absurd h (natToString_ne_nil n)
  | cons b bs =>
    have hb : 48 ≤ b ∧ b ≤ 57 := natToString_bounds n b (by rw [h]; exact List.mem_cons_self _ _)
    have : b ≠ 43 := by omega
    rw [← h]
    split
    · next heq =>
      rw [h] at heq
      cases heq
      omega
    · exact parseDigits_natToString n

theorem readUntilByte_split : ∀ (d : Nat) s rest, (∀ b ∈ s, b ≠ d) →
    readUntilByte d (s ++ d :: rest) = (s ++ [d], rest) := by
  intro d s
  induction s with
  | nil => intro rest _; simp [readUntilByte]
  | cons x xs ih =>
    intro rest hs
    have hx : x ≠ d := hs x (List.mem_cons_self _ _)
    simp only [List.cons_append, readUntilByte, if_neg hx, List.append_eq]
    rw [ih rest (fun b hb => hs b (List.mem_cons_of_mem _ hb))]

theorem dropLast_append_single : ∀ (l : List Nat) a, (l ++ [a]).dropLast = l := by
  intro l a
  simp

theorem chunksOfFuel_flatten : ∀ (sz : Nat), 0 < sz → ∀ f l, l.length ≤ f →
    (chunksOfFuel sz f l).flatten = l := by
  intro sz hsz f
  induction f with
  | zero =>
    intro l hl
    have : l = [] := List.eq_nil_of_length_eq_zero (by omega)
    subst this
    rfl
  | succ f ih =>
    intro l hl
    cases l with
    | nil => rfl
    | cons x xs =>
      simp only [chunksOfFuel, List.flatten]
      rw [ih ((x :: xs).drop sz)
        (by simp only [List.length_drop, List.length_cons] at *; omega)]
      exact List.take_append_drop sz (x :: xs)

theorem readChunks_flatten : ∀ l, (readChunks l).flatten = l := by
  intro l
  exact chunksOfFuel_flatten 1024 (by omega) l.length l (Nat.le_refl _)

theorem foldl_sha1_update : ∀ (chunks : List (List Nat)) (acc : Sha1State),
    chunks.foldl Sha1.update acc = acc ++ chunks.flatten := by
  intro chunks
  induction chunks with
  | nil => intro acc; simp [List.flatten]
  | cons c cs ih => intro acc; simp [List.foldl_cons, ih, Sha1.update, List.flatten]

theorem lastSlashSplit_none : ∀ l, (∀ b ∈ l, b ≠ 47) → lastSlashSplit l = none := by
  intro l
  induction l with
  | nil => intro _; rfl
  | cons x xs ih =>
    intro hl
    simp only [lastSlashSplit]
    rw [ih (fun b hb => hl b (List.mem_cons_of_mem _ hb))]
    simp [hl x (List.mem_cons_self _ _)]

theorem lastSlashSplit_append : ∀ xs ys, (∀ b ∈ ys, b ≠ 47) →
    lastSlashSplit (xs ++ 47 :: ys) = some xs := by
  intro xs
  induction xs with
  | nil =>
    intro ys hys
    simp only [List.nil_append, lastSlashSplit]
    rw [lastSlashSplit_none ys hys]
    simp
  | cons x xs ih =>
    intro ys hys
    simp only [List.cons_append, lastSlashSplit, List.append_eq]
    rw [ih ys hys]

theorem hexDigitChar_bounds : ∀ n, n < 16 → (48 ≤ hexDigitChar n ∧ hexDigitChar n ≤ 57) ∨
    (97 ≤ hexDigitChar n ∧ hexDigitChar n ≤ 102) := by
  intro n hn
  unfold hexDigitChar
  split <;> omega

theorem hexEncode_no_slash : ∀ bs b, b ∈ hexEncode bs → b ≠ 47 := by
  intro bs
  induction bs with
  | nil => intro b hb; simp [hexEncode] at hb
  | cons x xs ih =>
    intro b hb
    simp only [hexEncode, List.mem_cons] at hb
    rcases hb with h | h | h
    · subst h
      have := hexDigitChar_bounds (x / 16 % 16) (Nat.mod_lt _ (by omega))
      omega
    · subst h
      have := hexDigitChar_bounds (x % 16) (Nat.mod_lt _ (by omega))
      omega
    · exact ih b h

theorem parent_obj_path : ∀ h : List Nat,
    lastSlashSplit (obj_path_from_sha (hexEncode h)) =
      some (strBytes ".git/objects/" ++ (hexEncode h).take 2) := by
  intro h
  unfold obj_path_from_sha
  have he : strBytes ".git/objects/" ++ (hexEncode h).take 2 ++ 47 :: (hexEncode h).drop 2
      = (strBytes ".git/objects/" ++ (hexEncode h).take 2) ++ 47 :: (hexEncode h).drop 2 := by
    rw [List.append_assoc]
  rw [he]
  apply lastSlashSplit_append
  intro b hb
  exact hexEncode_no_slash h b (List.mem_of_mem_drop hb)

/-! Helper lemmas about the object database model. -/

theorem copyChunks_single : ∀ c acc, copyChunks [Chunk.ok c] acc = (true, acc ++ c) := by
  intro c acc
  rfl

theorem filter_idem : ∀ (l : List (List Nat × FsFile)) (f : List Nat × FsFile → Bool),
    (l.filter f).filter f = l.filter f := by
  intro l f
  induction l with
  | nil => rfl
  | cons x xs ih =>
    by_cases hx : f x = true
    · simp [List.filter_cons, hx, ih]
    · simp only [List.filter_cons]
      rw [Bool.not_eq_true] at hx
      simp [hx, ih]

theorem setFile_setFile : ∀ (db : ObjDb) p a b,
    ObjDb.setFile (ObjDb.setFile db p a) p b = ObjDb.setFile db p b := by
  intro db p a b
  unfold ObjDb.setFile
  simp only [ObjDb.mk.injEq, and_true, List.cons.injEq, true_and]
  rw [List.filter_cons, if_neg (by simp)]
  exact filter_idem db.files _

theorem find?_none_of_any_false : ∀ (l : List (List Nat × FsFile)) (f : List Nat × FsFile → Bool),
    l.any f = false → l.find? f = none := by
  intro l f
  induction l with
  | nil => intro _; rfl
  | cons x xs ih =>
    intro h
    simp only [List.any_cons, Bool.or_eq_false_iff] at h
    rw [List.find?_cons_of_neg _ (by simp [h.1]), ih h.2]

theorem pathExists_setFile_self : ∀ (db : ObjDb) p f,
    pathExists (ObjDb.setFile db p f) p = true := by
  intro db p f
  simp [pathExists, ObjDb.setFile, List.any_cons]

/-- Characterization of encode_object at a fresh file path whose parent
directory is not occupied by a file: the bytes land directly at the
final path, the prefix directory is created when absent, success marks
the file read-only, and an input failure leaves the partial write in
place with the error propagated. -/
theorem encode_object_fresh : ∀ otype tn input filesz p dir db,
    typeName otype = some tn →
    lastSlashSplit p = some dir →
    ObjDb.findFile db p = none →
    (db.dirs.contains dir = true ∨ db.files.any (fun kv => kv.1 == dir) = false) →
    encode_object otype input filesz p db =
      (let dbA := if db.dirs.contains dir then db else ⟨db.files, dir :: db.dirs⟩
       let copied := copyChunks input (tn ++ 32 :: natToString filesz ++ [0])
       if copied.1 then
         (Except.ok (), ObjDb.setFile dbA p ⟨copied.2, true⟩)
       else
         (Except.error EncodeErr.ioFailure, ObjDb.setFile dbA p ⟨copied.2, false⟩)) := by
  intro otype tn input filesz p dir db htn hsplit hfind hdir
  have hbody : ∀ dbA : ObjDb,
      encodeBody otype input filesz p (dbA.setFile p ⟨[], false⟩) [] =
      (let copied := copyChunks input (tn ++ 32 :: natToString filesz ++ [0])
       if copied.1 then
         (Except.ok (), ObjDb.setFile dbA p ⟨copied.2, true⟩)
       else
         (Except.error EncodeErr.ioFailure, ObjDb.setFile dbA p ⟨copied.2, false⟩)) := by
    intro dbA
    unfold encodeBody
    simp only [htn, List.drop_nil, List.append_nil]
    by_cases hc : (copyChunks input (tn ++ 32 :: natToString filesz ++ [0])).1 = true
    · simp only [hc, if_true, setFile_setFile]
    · rw [Bool.not_eq_true] at hc
      simp only [hc, Bool.false_eq_true, if_false, setFile_setFile]
  unfold encode_object
  cases hd : db.dirs.contains dir with
  | true =>
    have he : ensureDir db dir = Except.ok db := by
      unfold ensureDir
      rw [hd]
      simp
    simp only [hsplit, he, hfind, hd, if_true]
    exact hbody db
  | false =>
    have hany : db.files.any (fun kv => kv.1 == dir) = false := by
      rcases hdir with h | h
      · rw [hd] at h; exact absurd h (by simp)
      · exact h
    have he : ensureDir db dir = Except.ok ⟨db.files, dir :: db.dirs⟩ := by
      unfold ensureDir
      rw [hd, hany]
      simp
    have hfindA : ObjDb.findFile ⟨db.files, dir :: db.dirs⟩ p = none := hfind
    simp only [hsplit, he, hfindA, hd, Bool.false_eq_true, if_false]
    exact hbody ⟨db.files, dir :: db.dirs⟩

/-- Characterization of encode_object when a file occupies the parent
directory path: the ensure fails and nothing changes. -/
theorem encode_object_dir_occupied : ∀ otype input filesz p dir db,
    lastSlashSplit p = some dir →
    db.dirs.contains dir = false →
    db.files.any (fun kv => kv.1 == dir) = true →
    encode_object otype input filesz p db = (Except.error EncodeErr.notADir, db) := by
  intro otype input filesz p dir db hsplit hd hany
  have he : ensureDir db dir = Except.error EncodeErr.notADir := by
    unfold ensureDir
    rw [hd, hany]
    simp
  unfold encode_object
  simp only [hsplit, he]

/-! Helper lemmas about serialization, decoding, and the two store writers. -/

theorem serializeTree_none_of_mem : ∀ t, (∃ e ∈ t, TreeObjMode.as_bytes e.mode = none) →
    serializeTree t = none := by
  intro t
  induction t with
  | nil => rintro ⟨e, he, _⟩; simp at he
  | cons e rest ih =>
    rintro ⟨x, hx, hxb⟩
    rcases List.mem_cons.mp hx with h | h
    · subst h
      simp [serializeTree, hxb]
    · unfold serializeTree
      cases hb : TreeObjMode.as_bytes e.mode with
      | none => rfl
      | some mb => rw [ih ⟨x, h, hxb⟩]; rfl

theorem serializeTree_isSome : ∀ t, (∀ e ∈ t, (TreeObjMode.as_bytes e.mode).isSome = true) →
    (serializeTree t).isSome = true := by
  intro t
  induction t with
  | nil => intro _; rfl
  | cons e rest ih =>
    intro h
    unfold serializeTree
    cases hb : TreeObjMode.as_bytes e.mode with
    | none =>
      have := h e (List.mem_cons_self _ _)
      rw [hb] at this
      simp at this
    | some mb =>
      have hrest := ih (fun x hx => h x (List.mem_cons_of_mem _ hx))
      cases hr : serializeTree rest with
      | none => rw [hr] at hrest; simp at hrest
      | some r => simp

theorem parseObjSize_header : ∀ t n (C : List Nat),
    parseObjSize t (32 :: natToString n ++ 0 :: C) = some (t, n, C) := by
  intro t n C
  have h0 : parseObjSize t (32 :: natToString n ++ 0 :: C) =
      (match parseUsize (readUntilByte 0 (natToString n ++ 0 :: C)).1.dropLast with
       | some m => some (t, m, (readUntilByte 0 (natToString n ++ 0 :: C)).2)
       | none => none) := rfl
  rw [h0, readUntilByte_split 0 (natToString n) C
    (fun b hb => by have := natToString_bounds n b hb; omega)]
  simp [dropLast_append_single, parseUsize_natToString]

theorem findFile_none_of_not_exists : ∀ db p, pathExists db p = false →
    ObjDb.findFile db p = none := by
  intro db p h
  unfold pathExists at h
  rw [Bool.or_eq_false_iff] at h
  unfold ObjDb.findFile
  rw [find?_none_of_any_false _ _ h.2]

theorem hash_object_exists_noop : ∀ C db,
    pathExists db (obj_path_from_sha (hexEncode (hash_file C))) = true →
    hash_object C true db = (Except.ok (hash_file C), db) := by
  intro C db h
  unfold hash_object
  simp only [h, if_true]

theorem hash_object_progress : ∀ C db,
    pathExists (hash_object C true db).2 (obj_path_from_sha (hexEncode (hash_file C))) = true
    ∨ (hash_object C true db).2 = db := by
  intro C db
  by_cases h : pathExists db (obj_path_from_sha (hexEncode (hash_file C))) = true
  · right
    rw [hash_object_exists_noop C db h]
  · rw [Bool.not_eq_true] at h
    have hfind : ObjDb.findFile db (obj_path_from_sha (hexEncode (hash_file C))) = none :=
      findFile_none_of_not_exists _ _ h
    have hsplit := parent_obj_path (hash_file C)
    by_cases hdir : db.dirs.contains (strBytes ".git/objects/" ++ (hexEncode (hash_file C)).take 2) = true
        ∨ db.files.any (fun kv => kv.1 == strBytes ".git/objects/" ++ (hexEncode (hash_file C)).take 2) = false
    · left
      have henc := encode_object_fresh ObjType.Blob (strBytes "blob") [Chunk.ok C] C.length
        (obj_path_from_sha (hexEncode (hash_file C)))
        (strBytes ".git/objects/" ++ (hexEncode (hash_file C)).take 2) db rfl hsplit hfind hdir
      simp only [copyChunks_single, if_true] at henc
      unfold hash_object
      simp only [h, Bool.false_eq_true, if_false, henc]
      exact pathExists_setFile_self _ _ _
    · right
      push_neg at hdir
      have hd : db.dirs.contains (strBytes ".git/objects/" ++ (hexEncode (hash_file C)).take 2) = false :=
        Bool.eq_false_iff.mpr hdir.1
      have hany : db.files.any (fun kv => kv.1 == strBytes ".git/objects/" ++ (hexEncode (hash_file C)).take 2) = true :=
        Bool.ne_false_iff.mp hdir.2
      have henc := encode_object_dir_occupied ObjType.Blob [Chunk.ok C] C.length
        (obj_path_from_sha (hexEncode (hash_file C)))
        (strBytes ".git/objects/" ++ (hexEncode (hash_file C)).take 2) db hsplit hd hany
      unfold hash_object
      simp only [h, Bool.false_eq_true, if_false, henc]
      simp

theorem hash_tree_exists_noop : ∀ t buf db, serializeTree t = some buf →
    pathExists db (obj_path_from_sha (hexEncode (treeHashOf buf))) = true →
    hash_tree t db = (Except.ok (treeHashOf buf), db) := by
  intro t buf db hs h
  unfold hash_tree
  simp only [hs, h, if_true]

theorem hash_tree_progress : ∀ t db,
    (∃ buf, serializeTree t = some buf ∧
      pathExists (hash_tree t db).2 (obj_path_from_sha (hexEncode (treeHashOf buf))) = true)
    ∨ (hash_tree t db).2 = db := by
  intro t db
  cases hs : serializeTree t with
  | none =>
    right
    unfold hash_tree
    simp only [hs]
  | some buf =>
    by_cases h : pathExists db (obj_path_from_sha (hexEncode (treeHashOf buf))) = true
    · left
      exact ⟨buf, rfl, by rw [hash_tree_exists_noop t buf db hs h]; exact h⟩
    · rw [Bool.not_eq_true] at h
      have hfind : ObjDb.findFile db (obj_path_from_sha (hexEncode (treeHashOf buf))) = none :=
        findFile_none_of_not_exists _ _ h
      have hsplit := parent_obj_path (treeHashOf buf)
      by_cases hdir : db.dirs.contains (strBytes ".git/objects/" ++ (hexEncode (treeHashOf buf)).take 2) = true
          ∨ db.files.any (fun kv => kv.1 == strBytes ".git/objects/" ++ (hexEncode (treeHashOf buf)).take 2) = false
      · left
        refine ⟨buf, rfl, ?_⟩
        have henc := encode_object_fresh ObjType.Tree (strBytes "tree") [Chunk.ok buf] buf.length
          (obj_path_from_sha (hexEncode (treeHashOf buf)))
          (strBytes ".git/objects/" ++ (hexEncode (treeHashOf buf)).take 2) db rfl hsplit hfind hdir
        simp only [copyChunks_single, if_true] at henc
        unfold hash_tree
        simp only [hs, h, Bool.false_eq_true, if_false, henc]
        exact pathExists_setFile_self _ _ _
      · right
        push_neg at hdir
        have hd : db.dirs.contains (strBytes ".git/objects/" ++ (hexEncode (treeHashOf buf)).take 2) = false :=
          Bool.eq_false_iff.mpr hdir.1
        have hany : db.files.any (fun kv => kv.1 == strBytes ".git/objects/" ++ (hexEncode (treeHashOf buf)).take 2) = true :=
          Bool.ne_false_iff.mp hdir.2
        have henc := encode_object_dir_occupied ObjType.Tree [Chunk.ok buf] buf.length
          (obj_path_from_sha (hexEncode (treeHashOf buf)))
          (strBytes ".git/objects/" ++ (hexEncode (treeHashOf buf)).take 2) db hsplit hd hany
        unfold hash_tree
        simp only [hs, h, Bool.false_eq_true, if_false, henc]

/-! The claims. -/

/-- C1: the hash the program computes is SHA-1 of the canonical header
(kind token, space, decimal byte length, NUL) followed by the content,
for kind Blob via hash_file on file content and for kind Tree via
hash_tree on an in-memory tree body whose serialization succeeds; both
paths are the same function of kind and content. -/
theorem C1_hash_matches_spec :
    (∀ C : List Nat, hash_file C = specObjectHash (strBytes "blob") C) ∧
    (∀ t buf, serializeTree t = some buf →
      hashTreeHash t = some (specObjectHash (strBytes "tree") buf)) := by
  constructor
  · intro C
    unfold hash_file hash_file_stream
    rw [foldl_sha1_update, readChunks_flatten]
    unfold Sha1.finalize Sha1.update Sha1.newWithPrefix specObjectHash
    congr 1
    have hb : strBytes "blob " = strBytes "blob" ++ [32] := rfl
    rw [hb]
    simp [List.append_assoc]
  · intro t buf h
    unfold hashTreeHash
    rw [h]
    show some (treeHashOf buf) = some (specObjectHash (strBytes "tree") buf)
    refine congrArg some ?_
    unfold treeHashOf Sha1.finalize Sha1.update Sha1.newWithPrefix specObjectHash
    refine congrArg sha1 ?_
    have ht : strBytes "tree " = strBytes "tree" ++ [32] := rfl
    rw [ht]
    simp [List.append_assoc]

/-- C1 witness: the tree half discharged at the empty tree. -/
theorem C1_hash_matches_spec_witness :
    serializeTree [] = some [] ∧
    hashTreeHash [] = some (specObjectHash (strBytes "tree") []) :=
  ⟨rfl, C1_hash_matches_spec.2 [] [] rfl⟩

/-- C9 counterexample: the example content has 16 bytes, not 17, so the
stream hash_file hashes is not the claimed 25-byte sequence headed by
the token blob and the length 17. -/
theorem C9_cex :
    (strBytes "what is up, doc?").length = 16 ∧
    ¬ (strBytes "what is up, doc?").length = 17 ∧
    hash_file_stream (strBytes "what is up, doc?") ≠
      strBytes "blob 17" ++ [0] ++ strBytes "what is up, doc?" := by
  refine ⟨rfl, by decide, by decide⟩

/-- C9 amended: the content is 16 bytes; hash_file hashes the header
blob-space-16-NUL followed by the content, 24 bytes in total, and the
resulting digest is bd9dbf5aae1a3862dd1526723246b20206e5fc37. -/
theorem C9_amended :
    hash_file_stream (strBytes "what is up, doc?") =
      strBytes "blob 16" ++ [0] ++ strBytes "what is up, doc?" ∧
    hash_file (strBytes "what is up, doc?") =
      sha1 (strBytes "blob 16" ++ [0] ++ strBytes "what is up, doc?") ∧
    hash_file (strBytes "what is up, doc?") =
      [189, 157, 191, 90, 174, 26, 56, 98, 221, 21, 38, 114, 50, 70, 178, 2, 6, 229, 252, 55] := by
  refine ⟨by decide, ?_, by decide⟩
  have h : hash_file_stream (strBytes "what is up, doc?") =
      strBytes "blob 16" ++ [0] ++ strBytes "what is up, doc?" := by decide
  unfold hash_file Sha1.finalize
  rw [h]

/-- C10: serializing a tree for hashing is total exactly on entries
whose mode is RegularFile or Directory; any tree containing a Link or
ExecutableFile entry hits the unimplemented mode encoding, so
hash_tree cannot encode it (the panic is the none result). -/
theorem C10_serialize_partial :
    (∀ t, (∃ e ∈ t, e.mode = TreeObjMode.Link ∨ e.mode = TreeObjMode.ExecutableFile) →
      hashTreeHash t = none) ∧
    (∀ t, (∀ e ∈ t, e.mode = TreeObjMode.RegularFile ∨ e.mode = TreeObjMode.Directory) →
      (hashTreeHash t).isSome = true) := by
  constructor
  · rintro t ⟨e, he, hm⟩
    unfold hashTreeHash
    rw [serializeTree_none_of_mem t ⟨e, he, by rcases hm with h | h <;> rw [h] <;> rfl⟩]
    rfl
  · intro t h
    have hs := serializeTree_isSome t
      (fun e he => by rcases h e he with hm | hm <;> rw [hm] <;> rfl)
    unfold hashTreeHash
    cases hx : serializeTree t with
    | none => rw [hx] at hs; simp at hs
    | some buf => simp

/-- C10 witness: both halves discharged at singleton trees. -/
theorem C10_serialize_partial_witness :
    ((∃ e ∈ [({ mode := TreeObjMode.Link, otype := ObjType.Blob, hash := [], name := [] } : TreeEntry)],
        e.mode = TreeObjMode.Link ∨ e.mode = TreeObjMode.ExecutableFile) ∧
      hashTreeHash [⟨TreeObjMode.Link, ObjType.Blob, [], []⟩] = none) ∧
    ((∀ e ∈ [({ mode := TreeObjMode.RegularFile, otype := ObjType.Blob, hash := [], name := [] } : TreeEntry)],
        e.mode = TreeObjMode.RegularFile ∨ e.mode = TreeObjMode.Directory) ∧
      (hashTreeHash [⟨TreeObjMode.RegularFile, ObjType.Blob, [], []⟩]).isSome = true) :=
  ⟨⟨by decide, C10_serialize_partial.1 _ (by decide)⟩,
   ⟨by decide, C10_serialize_partial.2 _ (by decide)⟩⟩

/-- C2 counterexample: decoding the encoding of kind tag with empty
content yields the kind but a content stream that still carries the
decimal length digit and the NUL (bytes 48 and 0), not the empty
content, so the round trip is not byte-identical for tag. -/
theorem C2_roundtrip_cex :
    encodeStream ObjType.Tag [] = some (strBytes "tag 0" ++ [0]) ∧
    object_decoder (strBytes "tag 0" ++ [0]) = some (ObjType.Tag, 0, [48, 0]) ∧
    ([48, 0] : List Nat) ≠ [] := by
  refine ⟨rfl, rfl, by decide⟩

/-- C2 amended: decoding the encoding of (K, C) always reproduces the
kind K; for blob and tree it also reproduces the declared length and a
byte-identical content stream, while for commit and tag the declared
length is 0 and the content stream is the decimal length and the NUL
followed by C. -/
theorem C2_roundtrip_amended : ∀ t C s, encodeStream t C = some s →
    ((t = ObjType.Blob ∨ t = ObjType.Tree) →
      object_decoder s = some (t, C.length, C)) ∧
    ((t = ObjType.Commit ∨ t = ObjType.Tag) →
      object_decoder s = some (t, 0, natToString C.length ++ 0 :: C)) := by
  intro t C s h
  cases t with
  | None => simp [encodeStream, typeName] at h
  | Blob =>
    have hs : s = strBytes "blob" ++ 32 :: natToString C.length ++ 0 :: C := by
      simp [encodeStream, typeName] at h
      exact h.symm
    subst hs
    constructor
    · intro _
      have h1 : object_decoder (strBytes "blob" ++ 32 :: natToString C.length ++ 0 :: C) =
          parseObjSize ObjType.Blob (32 :: natToString C.length ++ 0 :: C) := rfl
      rw [h1, parseObjSize_header]
    · rintro (hk | hk) <;> exact absurd hk (by decide)
  | Tree =>
    have hs : s = strBytes "tree" ++ 32 :: natToString C.length ++ 0 :: C := by
      simp [encodeStream, typeName] at h
      exact h.symm
    subst hs
    constructor
    · intro _
      have h1 : object_decoder (strBytes "tree" ++ 32 :: natToString C.length ++ 0 :: C) =
          parseObjSize ObjType.Tree (32 :: natToString C.length ++ 0 :: C) := rfl
      rw [h1, parseObjSize_header]
    · rintro (hk | hk) <;> exact absurd hk (by decide)
  | Commit =>
    have hs : s = strBytes "commit" ++ 32 :: natToString C.length ++ 0 :: C := by
      simp [encodeStream, typeName] at h
      exact h.symm
    subst hs
    constructor
    · rintro (hk | hk) <;> exact absurd hk (by decide)
    · intro _
      rfl
  | Tag =>
    have hs : s = strBytes "tag" ++ 32 :: natToString C.length ++ 0 :: C := by
      simp [encodeStream, typeName] at h
      exact h.symm
    subst hs
    constructor
    · rintro (hk | hk) <;> exact absurd hk (by decide)
    · intro _
      rfl

/-- C2 witness: the amended statement discharged at kind blob with a
one-byte content. -/
theorem C2_roundtrip_amended_witness :
    encodeStream ObjType.Blob [7] = some (strBytes "blob 1" ++ [0] ++ [7]) ∧
    (ObjType.Blob = ObjType.Blob ∨ ObjType.Blob = ObjType.Tree) ∧
    object_decoder (strBytes "blob 1" ++ [0] ++ [7]) = some (ObjType.Blob, 1, [7]) :=
  ⟨by decide, Or.inl rfl,
    (C2_roundtrip_amended ObjType.Blob [7] (strBytes "blob 1" ++ [0] ++ [7])
      (by decide)).1 (Or.inl rfl)⟩

/-- C4: evaluation of the decoder on a stream whose kind token is the
unrecognized word bogus: the fixed four-byte magic read misses the
token end, no Corrupt error is raised, and the decoder silently
returns kind Blob with size 0 and the stream positioned after the
four magic bytes. -/
theorem C4_fixed_width_eval :
    object_decoder (strBytes "bogus 3" ++ [0] ++ strBytes "abc") =
      some (ObjType.Blob, 0, strBytes "s 3" ++ [0] ++ strBytes "abc") := by
  rfl

/-- C6: evaluation of the mode parser at the failing input 100755: only
the first two bytes are inspected, so the executable mode token parses
as RegularFile, and no token at all can produce ExecutableFile. -/
theorem C6_mode_eval :
    TreeObjMode.fromBytes (strBytes "100755") = some TreeObjMode.RegularFile ∧
    (∀ bs, TreeObjMode.fromBytes bs ≠ some TreeObjMode.ExecutableFile) := by
  refine ⟨rfl, ?_⟩
  intro bs
  cases bs with
  | nil => simp [TreeObjMode.fromBytes]
  | cons b0 rest =>
    cases rest with
    | nil =>
      simp only [TreeObjMode.fromBytes]
      split_ifs <;> simp
    | cons b1 rest2 =>
      simp only [TreeObjMode.fromBytes]
      split_ifs <;> simp

/-- C6 witness: the no-token-yields-ExecutableFile half applied at the
token 100755. -/
theorem C6_mode_eval_witness :
    TreeObjMode.fromBytes (strBytes "100755") ≠ some TreeObjMode.ExecutableFile :=
  C6_mode_eval.2 (strBytes "100755")

/-- C7: evaluation of the LsTree entry loop at truncated streams.  A
stream ending mid-entry with only five of the twenty hash bytes makes
the loop panic (process termination), a stream ending right after the
mode token is silently accepted as an empty tree (the parsed mode is
dropped), and only the empty stream case is the documented clean
termination. -/
theorem C7_lstree_eval :
    lsTree (strBytes "40000 a" ++ [0] ++ [1, 2, 3, 4, 5]) = LsTreeResult.panicked ∧
    lsTree (strBytes "100644 ") = LsTreeResult.ok [] ∧
    lsTree [] = LsTreeResult.ok [] := by
  exact ⟨rfl, rfl, rfl⟩

/-- C8 counterexample: a symbolic link to a file whose link text is the
single byte t and whose target holds the bytes of hello is stored by
the tree builder as a blob of the target bytes with mode RegularFile,
not as a blob of the link text with mode Link; and a symbolic link to
a directory is walked exactly as that directory, so it is followed. -/
theorem C8_symlink_cex :
    write_tree_recursive 2 [(strBytes "l", FsNode.symlinkFile (strBytes "t") (strBytes "hello"))]
      = some [⟨TreeObjMode.RegularFile, ObjType.Blob, hash_file (strBytes "hello"), strBytes "l"⟩] ∧
    TreeObjMode.RegularFile ≠ TreeObjMode.Link ∧
    write_tree_recursive 2
        [(strBytes "d", FsNode.symlinkDir (strBytes "t") [(strBytes "x", FsNode.file (strBytes "hi"))])]
      = write_tree_recursive 2
        [(strBytes "d", FsNode.dir [(strBytes "x", FsNode.file (strBytes "hi"))])] := by
  exact ⟨rfl, by decide, rfl⟩

/-- C8 amended: the tree builder treats a symbolic link exactly as its
target: a link to a file contributes a RegularFile entry whose hash is
the blob hash of the target content (the link text is ignored), and a
link to a directory is followed and recursed into like a directory. -/
theorem C8_symlink_amended :
    (∀ r name lk d rest, wtrStep r ((name, FsNode.symlinkFile lk d) :: rest) =
      wtrStep r ((name, FsNode.file d) :: rest)) ∧
    (∀ r name lk cs rest, wtrStep r ((name, FsNode.symlinkDir lk cs) :: rest) =
      wtrStep r ((name, FsNode.dir cs) :: rest)) ∧
    (∀ fuel name lk d, ¬ name = strBytes ".git" →
      write_tree_recursive (fuel + 1) [(name, FsNode.symlinkFile lk d)] =
        some [⟨TreeObjMode.RegularFile, ObjType.Blob, hash_file d, name⟩]) := by
  refine ⟨fun r name lk d rest => rfl, fun r name lk cs rest => rfl, ?_⟩
  intro fuel name lk d hname
  show wtrStep (write_tree_recursive fuel) (sortByName [(name, FsNode.symlinkFile lk d)]) = _
  have hsort : sortByName [(name, FsNode.symlinkFile lk d)] = [(name, FsNode.symlinkFile lk d)] := rfl
  rw [hsort]
  simp [wtrStep, hname]

/-- C8 witness: the builder equation discharged at a one-entry
directory holding one symbolic link. -/
theorem C8_symlink_amended_witness :
    ¬ strBytes "l" = strBytes ".git" ∧
    write_tree_recursive 1 [(strBytes "l", FsNode.symlinkFile (strBytes "t") (strBytes "x"))] =
      some [⟨TreeObjMode.RegularFile, ObjType.Blob, hash_file (strBytes "x"), strBytes "l"⟩] :=
  ⟨by decide, C8_symlink_amended.2.2 0 (strBytes "l") (strBytes "t") (strBytes "x") (by decide)⟩

/-- C3: both store writers dedup on the derived object path: when the
path already exists the hash is returned with the database untouched,
and a repeated put of identical content (blob via hash_object, tree via
hash_tree) leaves the whole database, hence the stored bytes and the
read-only flag, unchanged. -/
theorem C3_put_idempotent :
    (∀ C db, pathExists db (obj_path_from_sha (hexEncode (hash_file C))) = true →
      hash_object C true db = (Except.ok (hash_file C), db)) ∧
    (∀ C db, (hash_object C true (hash_object C true db).2).2 = (hash_object C true db).2) ∧
    (∀ t buf db, serializeTree t = some buf →
      pathExists db (obj_path_from_sha (hexEncode (treeHashOf buf))) = true →
      hash_tree t db = (Except.ok (treeHashOf buf), db)) ∧
    (∀ t db, (hash_tree t (hash_tree t db).2).2 = (hash_tree t db).2) := by
  refine ⟨hash_object_exists_noop, ?_, hash_tree_exists_noop, ?_⟩
  · intro C db
    rcases hash_object_progress C db with h | h
    · rw [hash_object_exists_noop C _ h]
    · rw [h]
      exact h
  · intro t db
    rcases hash_tree_progress t db with ⟨buf, hs, hp⟩ | h
    · rw [hash_tree_exists_noop t buf _ hs hp]
    · rw [h]
      exact h

/-- C3 witness: both dedup halves discharged at the empty blob and the
empty tree against a database already holding the derived path. -/
theorem C3_put_idempotent_witness :
    pathExists ⟨[(obj_path_from_sha (hexEncode (hash_file [])), ⟨[], true⟩)], []⟩
        (obj_path_from_sha (hexEncode (hash_file []))) = true ∧
    hash_object [] true ⟨[(obj_path_from_sha (hexEncode (hash_file [])), ⟨[], true⟩)], []⟩ =
      (Except.ok (hash_file []),
       ⟨[(obj_path_from_sha (hexEncode (hash_file [])), ⟨[], true⟩)], []⟩) ∧
    serializeTree [] = some [] ∧
    pathExists ⟨[(obj_path_from_sha (hexEncode (treeHashOf [])), ⟨[], true⟩)], []⟩
        (obj_path_from_sha (hexEncode (treeHashOf []))) = true ∧
    hash_tree [] ⟨[(obj_path_from_sha (hexEncode (treeHashOf [])), ⟨[], true⟩)], []⟩ =
      (Except.ok (treeHashOf []),
       ⟨[(obj_path_from_sha (hexEncode (treeHashOf [])), ⟨[], true⟩)], []⟩) :=
  ⟨by decide,
   C3_put_idempotent.1 [] _ (by decide),
   rfl,
   by decide,
   C3_put_idempotent.2.2.1 [] [] _ rfl (by decide)⟩

/-- C5 counterexample: with the prefix directory present and the
destination fresh, an input failure after two content bytes leaves the
destination path itself holding the partially written stream, not
read-only, while the error is propagated: there is no temporary file
and no atomic rename guarding the final path. -/
theorem C5_write_cex :
    encode_object ObjType.Blob [Chunk.ok [1, 2], Chunk.ioErr] 4 (strBytes "ab/cd") ⟨[], []⟩
      = (Except.error EncodeErr.ioFailure,
         ⟨[(strBytes "ab/cd", ⟨strBytes "blob 4" ++ [0] ++ [1, 2], false⟩)], [strBytes "ab"]⟩) ∧
    ObjDb.findFile
        (encode_object ObjType.Blob [Chunk.ok [1, 2], Chunk.ioErr] 4 (strBytes "ab/cd") ⟨[], []⟩).2
        (strBytes "ab/cd")
      = some ⟨strBytes "blob 4" ++ [0] ++ [1, 2], false⟩ ∧
    some (⟨strBytes "blob 4" ++ [0] ++ [1, 2], false⟩ : FsFile) ≠ none := by
  exact ⟨rfl, rfl, by decide⟩

/-- C5 amended: an object-store write with the prefix directory in
place and a fresh destination writes the encoded bytes directly to the
final path; on success the file is marked read-only, and on an input
failure the error is propagated while the destination keeps the bytes
written so far (no temporary file, no rename, no cleanup). -/
theorem C5_write_amended : ∀ otype tn input filesz p dir db,
    typeName otype = some tn →
    lastSlashSplit p = some dir →
    ObjDb.findFile db p = none →
    db.dirs.contains dir = true →
    encode_object otype input filesz p db =
      (let copied := copyChunks input (tn ++ 32 :: natToString filesz ++ [0])
       if copied.1 then (Except.ok (), ObjDb.setFile db p ⟨copied.2, true⟩)
       else (Except.error EncodeErr.ioFailure, ObjDb.setFile db p ⟨copied.2, false⟩)) := by
  intro otype tn input filesz p dir db htn hsplit hfind hd
  rw [encode_object_fresh otype tn input filesz p dir db htn hsplit hfind (Or.inl hd)]
  simp only [hd, if_true]

/-- C5 witness: the amended statement discharged at a concrete failing
write. -/
theorem C5_write_amended_witness :
    typeName ObjType.Blob = some (strBytes "blob") ∧
    lastSlashSplit (strBytes "ab/cd") = some (strBytes "ab") ∧
    ObjDb.findFile ⟨[], [strBytes "ab"]⟩ (strBytes "ab/cd") = none ∧
    (⟨[], [strBytes "ab"]⟩ : ObjDb).dirs.contains (strBytes "ab") = true ∧
    encode_object ObjType.Blob [Chunk.ioErr] 4 (strBytes "ab/cd") ⟨[], [strBytes "ab"]⟩ =
      (Except.error EncodeErr.ioFailure,
       ObjDb.setFile ⟨[], [strBytes "ab"]⟩ (strBytes "ab/cd") ⟨strBytes "blob 4" ++ [0], false⟩) :=
  ⟨rfl, rfl, rfl, rfl,
   by
     rw [C5_write_amended ObjType.Blob (strBytes "blob") [Chunk.ioErr] 4
       (strBytes "ab/cd") (strBytes "ab") ⟨[], [strBytes "ab"]⟩ rfl rfl rfl rfl]
     rfl⟩
